import Mathlib

/-!
Verification development for the iris-cli archive-to-project materialization
pipeline (`utils/go.go` declaration parser and `project` unzip procedure).

Byte sequences are modelled as `List Char`, one `Char` per byte (all inputs of
interest are ASCII, where Go's byte-wise and rune-wise treatments coincide).
Recursive scans that are loops in the source are written with an explicit
fuel argument (always called with fuel larger than the list length) so that
every definition is structurally recursive and kernel-evaluable.
-/

/-- The ASCII white-space predicate of Go's `unicode.IsSpace` / `bytes.TrimSpace`
(restricted to single-byte characters). -/
def isSpace (c : Char) : Bool :=
  c = ' ' || c = '\t' || c = '\n' || c = '\x0b' || c = '\x0c' || c = '\r'

/-- Character predicate used to split a byte sequence at the first line feed. -/
def notNewline (c : Char) : Bool := decide (¬ c = '\n')

/-- `bytes.Index` / `strings.Index`: index of the first occurrence of `pat`
as a contiguous block, `none` when absent (Go returns -1). -/
def indexOfSub? (pat : List Char) : List Char → Option Nat
  | [] => if pat = [] then some 0 else none
  | c :: cs =>
    if pat.isPrefixOf (c :: cs) then some 0
    else (indexOfSub? pat cs).map (· + 1)

/-- Go `bytes.TrimSpace` on ASCII input: drop white-space from both ends. -/
def trimSpace (s : List Char) : List Char :=
  ((s.dropWhile isSpace).reverse.dropWhile isSpace).reverse

def slashSlash : List Char := ['/', '/']

def multilineCommentStart : List Char := ['/', '*']

def multilineCommentEnd : List Char := ['*', '/']

def moduleBytes : List Char := "module".toList

def pkgBytes : List Char := "package".toList

/-- Truncate a line at the first `//` marker (`line = line[:i]` in the source). -/
def stripLineComment (line : List Char) : List Char :=
  match indexOfSub? slashSlash line with
  | some i => line.take i
  | none => line

def quoteChar : Char := Char.ofNat 34

def backquoteChar : Char := Char.ofNat 96

def hexDigitVal? (c : Char) : Option Nat :=
  if '0' ≤ c ∧ c ≤ '9' then some (c.toNat - '0'.toNat)
  else if 'a' ≤ c ∧ c ≤ 'f' then some (c.toNat - 'a'.toNat + 10)
  else if 'A' ≤ c ∧ c ≤ 'F' then some (c.toNat - 'A'.toNat + 10)
  else none

def octDigitVal? (c : Char) : Option Nat :=
  if '0' ≤ c ∧ c ≤ '7' then some (c.toNat - '0'.toNat) else none

/-- Read `k` hexadecimal digits from the front of `s`, returning the value and
the remainder. Models the `\x`, `\u`, `\U` arms of Go `strconv.UnquoteChar`. -/
def readHex : Nat → List Char → Nat → Option (Nat × List Char)
  | 0, s, acc => some (acc, s)
  | _ + 1, [], _ => none
  | k + 1, c :: cs, acc =>
    match hexDigitVal? c with
    | some v => readHex k cs (acc * 16 + v)
    | none => none

/-- Escape-processing loop of Go `strconv.Unquote` for a double-quoted string:
`body` is the text after the opening quote; succeeds only when a closing quote
is the final character. Modelled from `strconv.Unquote`/`UnquoteChar`
restricted to ASCII input; the fuel is kept above `body.length`. -/
def unquoteInner (quote : Char) : Nat → List Char → Option (List Char)
  | 0, _ => none
  | _ + 1, [] => none
  | fuel + 1, c :: cs =>
    if c = quote then (if cs = [] then some [] else none)
    else if c = '\n' then none
    else if c = '\\' then
      match cs with
      | [] => none
      | e :: cs₂ =>
        if e = 'a' then (unquoteInner quote fuel cs₂).map (Char.ofNat 7 :: ·)
        else if e = 'b' then (unquoteInner quote fuel cs₂).map (Char.ofNat 8 :: ·)
        else if e = 'f' then (unquoteInner quote fuel cs₂).map (Char.ofNat 12 :: ·)
        else if e = 'n' then (unquoteInner quote fuel cs₂).map ('\n' :: ·)
        else if e = 'r' then (unquoteInner quote fuel cs₂).map ('\r' :: ·)
        else if e = 't' then (unquoteInner quote fuel cs₂).map ('\t' :: ·)
        else if e = 'v' then (unquoteInner quote fuel cs₂).map (Char.ofNat 11 :: ·)
        else if e = '\\' then (unquoteInner quote fuel cs₂).map ('\\' :: ·)
        else if e = quote then (unquoteInner quote fuel cs₂).map (quote :: ·)
        else if e = 'x' then
          match readHex 2 cs₂ 0 with
          | some (v, cs₃) => (unquoteInner quote fuel cs₃).map (Char.ofNat v :: ·)
          | none => none
        else if e = 'u' then
          match readHex 4 cs₂ 0 with
          | some (v, cs₃) =>
            if 0xD800 ≤ v ∧ v < 0xE000 then none
            else (unquoteInner quote fuel cs₃).map (Char.ofNat v :: ·)
          | none => none
        else if e = 'U' then
          match readHex 8 cs₂ 0 with
          | some (v, cs₃) =>
            if (0xD800 ≤ v ∧ v < 0xE000) ∨ 0x10FFFF < v then none
            else (unquoteInner quote fuel cs₃).map (Char.ofNat v :: ·)
          | none => none
        else
          match octDigitVal? e, cs₂ with
          | some d₁, e₂ :: e₃ :: cs₃ =>
            match octDigitVal? e₂, octDigitVal? e₃ with
            | some d₂, some d₃ =>
              let v := d₁ * 64 + d₂ * 8 + d₃
              if 255 < v then none
              else (unquoteInner quote fuel cs₃).map (Char.ofNat v :: ·)
            | _, _ => none
          | _, _ => none
    else (unquoteInner quote fuel cs).map (c :: ·)

/-- Go `strconv.Unquote`, modelled for the two forms reachable from
`parseDeclaration` (argument starting with a double quote or a backquote),
on ASCII input. A raw string must end at its closing backquote with nothing
following, carriage returns inside it are discarded; a double-quoted string is
processed escape by escape and must end at an unescaped closing quote. -/
def unquote (s : List Char) : Option (List Char) :=
  match s with
  | [] => none
  | q :: body =>
    if body = [] then none
    else if q = backquoteChar then
      match indexOfSub? [backquoteChar] body with
      | some i =>
        if body.length = i + 1 then some ((body.take i).filter (fun c => decide (¬ c = '\r')))
        else none
      | none => none
    else if q = quoteChar then unquoteInner quoteChar (body.length + 1) body
    else none

/-- Outcome of processing one line inside `parseDeclaration`'s loop:
either continue scanning a remainder of the text, or stop with a result. -/
inductive LineOutcome where
  | cont (rest : List Char)
  | done (r : Option (List Char))
deriving DecidableEq

/-- The trimmed argument token of a line, after stripping comments and
removing the keyword `declaration` (mirrors `line` after go.go line 57). -/
def lineToken (declaration l : List Char) : List Char :=
  trimSpace ((trimSpace (stripLineComment l)).drop declaration.length)

/-- One iteration of the loop in `parseDeclaration` (utils/go.go lines 32-71):
split off the first line, strip `//` comments, handle `/*` skipping
(`b = b[i:]` only when the `*/` index in the remainder is positive),
then try to match `declaration` followed by white-space and read its argument. -/
def lineStep (declaration : List Char) (b : List Char) : LineOutcome :=
  match indexOfSub? multilineCommentStart (stripLineComment (b.takeWhile notNewline)) with
  | some _ =>
    match indexOfSub? multilineCommentEnd ((b.dropWhile notNewline).drop 1) with
    | some i =>
      if 0 < i then LineOutcome.cont (((b.dropWhile notNewline).drop 1).drop i)
      else LineOutcome.cont ((b.dropWhile notNewline).drop 1)
    | none => LineOutcome.cont ((b.dropWhile notNewline).drop 1)
  | none =>
    if declaration.isPrefixOf (trimSpace (stripLineComment (b.takeWhile notNewline))) then
      if (lineToken declaration (b.takeWhile notNewline)).length =
           ((trimSpace (stripLineComment (b.takeWhile notNewline))).drop declaration.length).length ∨
         (lineToken declaration (b.takeWhile notNewline)).length = 0 then
        LineOutcome.cont ((b.dropWhile notNewline).drop 1)
      else
        match lineToken declaration (b.takeWhile notNewline) with
        | [] => LineOutcome.cont ((b.dropWhile notNewline).drop 1)
        | c :: _ =>
          if c = quoteChar ∨ c = backquoteChar then
            LineOutcome.done (unquote (lineToken declaration (b.takeWhile notNewline)))
          else LineOutcome.done (some (lineToken declaration (b.takeWhile notNewline)))
    else LineOutcome.cont ((b.dropWhile notNewline).drop 1)

/-- Fueled version of the `parseDeclaration` loop; each iteration recurses on a
strictly shorter remainder, so any fuel above `b.length` is enough. -/
def parseDeclarationAux (declaration : List Char) : Nat → List Char → Option (List Char)
  | 0, _ => none
  | fuel + 1, b =>
    if b = [] then none
    else
      match lineStep declaration b with
      | LineOutcome.cont rest => parseDeclarationAux declaration fuel rest
      | LineOutcome.done r => r

/-- `parseDeclaration(b, declaration)` from utils/go.go: scan `b` line by line
and return the argument of the first `declaration` keyword match, `none` for
Go's `nil` result (no match, or a malformed quoted argument). -/
def parseDeclaration (b declaration : List Char) : Option (List Char) :=
  parseDeclarationAux declaration (b.length + 1) b

/-- `ModulePath` from utils/go.go, as the byte sequence Go returns
(`nil` becomes `[]`). -/
def ModulePath (b : List Char) : List Char :=
  (parseDeclaration b moduleBytes).getD []

/-- `Package` from utils/go.go. -/
def Package (b : List Char) : List Char :=
  (parseDeclaration b pkgBytes).getD []

/-- Fueled version of Go `bytes.Replace` with unlimited count
(`bytes.ReplaceAll`): non-overlapping left-to-right substitution; an empty
`old` matches at the start of the slice and after every byte. -/
def replaceAllAux (old new : List Char) : Nat → List Char → List Char
  | 0, s => s
  | _ + 1, [] => if old = [] then new else []
  | fuel + 1, c :: cs =>
    if old = [] then new ++ c :: replaceAllAux old new fuel cs
    else if old.isPrefixOf (c :: cs) then new ++ replaceAllAux old new fuel ((c :: cs).drop old.length)
    else c :: replaceAllAux old new fuel cs

/-- `bytes.ReplaceAll(s, old, new)`. -/
def replaceAll (s old new : List Char) : List Char :=
  replaceAllAux old new (s.length + 1) s

/-- `new` interleaved before every byte of `s` and after its last byte:
the closed form of `replaceAll s [] new`. -/
def interleaved (new : List Char) : List Char → List Char
  | [] => new
  | c :: cs => new ++ c :: interleaved new cs

def pathSeparator : Char := '/'

/-- Element-stack pass of Go `path/filepath.Clean` (unix): skip empty and `.`
components, let `..` pop a previous real component, keep leading `..`s of a
relative path, drop `..` at the root of an absolute one. -/
def cleanStack (rooted : Bool) : List (List Char) → List (List Char) → List (List Char)
  | stack, [] => stack.reverse
  | stack, comp :: comps =>
    if comp = [] ∨ comp = ['.'] then cleanStack rooted stack comps
    else if comp = ['.', '.'] then
      match stack with
      | top :: rest =>
        if top = ['.', '.'] then cleanStack rooted (comp :: top :: rest) comps
        else cleanStack rooted rest comps
      | [] => if rooted then cleanStack rooted [] comps else cleanStack rooted [comp] comps
    else cleanStack rooted (comp :: stack) comps

/-- Go `filepath.Clean` for unix paths. -/
def clean (p : List Char) : List Char :=
  if p = [] then ['.']
  else
    let rooted := p.head? = some pathSeparator
    let parts := cleanStack rooted [] (p.splitOn pathSeparator)
    let out := List.intercalate [pathSeparator] parts
    if rooted then pathSeparator :: out
    else if out = [] then ['.'] else out

/-- Go `filepath.Join`: join the non-empty elements with the separator and
`Clean` the result; all-empty input yields the empty path. -/
def joinList (parts : List (List Char)) : List Char :=
  let ps := parts.filter (fun x => decide (¬ x = []))
  if ps = [] then [] else clean (List.intercalate [pathSeparator] ps)

def join (a b : List Char) : List Char := joinList [a, b]

/-- Go `filepath.Base` (unix). -/
def base (p : List Char) : List Char :=
  if p = [] then ['.']
  else
    let q := (p.reverse.dropWhile (fun c => c = pathSeparator)).reverse
    if q = [] then [pathSeparator]
    else (q.reverse.takeWhile (fun c => decide (¬ c = pathSeparator))).reverse

/-- Go `filepath.Dir` (unix): the cleaned portion up to and including the last
separator, `.` when there is none. -/
def dirOf (p : List Char) : List Char :=
  clean ((p.reverse.dropWhile (fun c => decide (¬ c = pathSeparator))).reverse)

def isAbs (p : List Char) : Bool := p.head? = some pathSeparator

/-- Go `filepath.Abs` with the working directory passed explicitly. -/
def absPath (cwd p : List Char) : List Char :=
  if isAbs p then clean p else joinList [cwd, p]

/-- Go `strings.Replace(s, pat, rep, 1)` for non-empty `pat`. -/
def replaceFirst (s pat rep : List Char) : List Char :=
  match indexOfSub? pat s with
  | some i => s.take i ++ rep ++ s.drop (i + pat.length)
  | none => s

def gopathToken : List Char := "${GOPATH}".toList

/-- An archive entry as the unzip loop sees it: name, directory flag,
permission mode, stored content. -/
structure ZipFile where
  name : List Char
  isDir : Bool
  mode : Nat
  content : List Char
deriving DecidableEq

/-- The `Project` descriptor from project/project.go. -/
structure Project where
  Repo : List Char
  Branch : List Char
  Dest : List Char
  Module : List Char
deriving DecidableEq

/-- Filesystem / archive-stream operations the unzip procedure performs and
which the environment may make fail. -/
inductive FsOp where
  | mkdirAll (path : List Char)
  | openFile (path : List Char)
  | copy (path : List Char)
  | entryOpen (name : List Char)
  | entryRead (name : List Char)
  | removeAll (path : List Char)
  | rename (src dst : List Char)
deriving DecidableEq

/-- Successful externally visible filesystem effects, in program order. -/
inductive FsEvent where
  | mkdir (path : List Char)
  | create (path : List Char) (mode : Nat)
  | write (path : List Char) (content : List Char)
  | removeAll (path : List Char)
  | rename (src dst : List Char)
deriving DecidableEq

/-- Errors `unzip` returns: the `illegal path` traversal error, or a
propagated I/O failure. -/
inductive UErr where
  | illegalPath (p : List Char)
  | ioErr (op : FsOp)
deriving DecidableEq

/-- Ambient state: `GOPATH`, the working directory, and the set of operations
that fail when attempted. -/
structure Env where
  gopath : List Char
  cwd : List Char
  fails : List FsOp
deriving DecidableEq

/-- Result of a run of `unzip`: its return value, the effect trace, and the
final values of the descriptor fields it mutates. -/
structure UnzipResult where
  err : Option UErr
  events : List FsEvent
  module : List Char
  dest : List Char
deriving DecidableEq

/-- `filepath.Base(p.Repo) + "-" + p.Branch` (project.go line 197). -/
def compressedRootFolder (p : Project) : List Char :=
  base p.Repo ++ '-' :: p.Branch

/-- The go.mod discovery loop (project.go lines 207-228): `scanFrom k` is the
loop `for i := k; i > 0; i--` returning the first entry, scanning downward,
whose cleaned name equals `modFile`; index 0 is never examined. -/
def scanFrom (modFile : List Char) (entries : List ZipFile) : Nat → Option (Nat × ZipFile)
  | 0 => none
  | i + 1 =>
    match entries.get? (i + 1) with
    | some f => if clean f.name = modFile then some (i + 1, f) else scanFrom modFile entries i
    | none => scanFrom modFile entries i

/-- The full manifest scan, started at the last index. -/
def findGoMod (modFile : List Char) (entries : List ZipFile) : Option (Nat × ZipFile) :=
  scanFrom modFile entries (entries.length - 1)

def goModName : List Char := "go.mod".toList

def modFilePath (p : Project) : List Char :=
  join (compressedRootFolder p) goModName

/-- The original module name the scan discovers (`[]` when no manifest entry is
found or its content has no module declaration). -/
def discoveredOld (p : Project) (entries : List ZipFile) : List Char :=
  match findGoMod (modFilePath p) entries with
  | some (_, f) => ModulePath f.content
  | none => []

/-- The target module name after defaulting (`p.Module`, or the discovered one
when `p.Module` is empty). -/
def resolvedModule (p : Project) (entries : List ZipFile) : List Char :=
  if p.Module = [] then discoveredOld p entries else p.Module

/-- The rewrite decision `shouldReplace = !bytes.Equal(old, new)`. -/
def shouldReplaceOf (p : Project) (entries : List ZipFile) : Bool :=
  decide (¬ discoveredOld p entries = resolvedModule p entries)

/-- Destination resolution (project.go lines 236-251). -/
def resolveDest (p : Project) (mod : List Char) (env : Env) : List Char :=
  if p.Dest = [] then
    if decide (¬ env.gopath = []) then joinList [env.gopath, ("src".toList), dirOf mod]
    else env.cwd
  else absPath env.cwd (replaceFirst p.Dest gopathToken env.gopath)

/-- The per-entry extraction loop (project.go lines 253-297): path-safety
check, `MkdirAll` for directories (error ignored), `OpenFile` / entry open /
optional full read and rewrite / `io.Copy` for files (errors fatal). -/
def extractLoop (dest : List Char) (sr : Bool) (oldN newN : List Char) (env : Env) :
    List ZipFile → List FsEvent × Option UErr
  | [] => ([], none)
  | f :: fs =>
    let fpath := join dest f.name
    if (clean dest ++ [pathSeparator]).isPrefixOf fpath then
      if f.isDir then
        let tail := extractLoop dest sr oldN newN env fs
        ((if FsOp.mkdirAll fpath ∈ env.fails then [] else [FsEvent.mkdir fpath]) ++ tail.1, tail.2)
      else if FsOp.openFile fpath ∈ env.fails then
        ([], some (UErr.ioErr (FsOp.openFile fpath)))
      else if FsOp.entryOpen f.name ∈ env.fails then
        ([FsEvent.create fpath f.mode], some (UErr.ioErr (FsOp.entryOpen f.name)))
      else if sr = true ∧ FsOp.entryRead f.name ∈ env.fails then
        ([FsEvent.create fpath f.mode], some (UErr.ioErr (FsOp.entryRead f.name)))
      else if FsOp.copy fpath ∈ env.fails then
        ([FsEvent.create fpath f.mode], some (UErr.ioErr (FsOp.copy fpath)))
      else
        let contents := if sr then replaceAll f.content oldN newN else f.content
        let tail := extractLoop dest sr oldN newN env fs
        (FsEvent.create fpath f.mode :: FsEvent.write fpath contents :: tail.1, tail.2)
    else ([], some (UErr.illegalPath fpath))

/-- The part of `unzip` after module discovery: rewrite decision, destination
resolution, the extraction loop, then `RemoveAll` (error ignored) and the
final `Rename` (project.go lines 230-301). -/
def unzipRest (p : Project) (entries : List ZipFile) (env : Env)
    (oldName newMod : List Char) : UnzipResult :=
  let sr := decide (¬ oldName = newMod)
  let dest := resolveDest p newMod env
  let res := extractLoop dest sr oldName newMod env entries
  match res.2 with
  | some e => ⟨some e, res.1, newMod, dest⟩
  | none =>
    let newpath := join dest (base newMod)
    let evs := res.1 ++ (if FsOp.removeAll newpath ∈ env.fails then [] else [FsEvent.removeAll newpath])
    let src := join dest (compressedRootFolder p)
    if FsOp.rename src newpath ∈ env.fails then
      ⟨some (UErr.ioErr (FsOp.rename src newpath)), evs, newMod, dest⟩
    else ⟨none, evs ++ [FsEvent.rename src newpath], newMod, dest⟩

/-- `Project.unzip` (project.go lines 196-302) over an already-parsed entry
list: manifest scan (open/read may fail), module-name defaulting, then
`unzipRest`. -/
def unzip (p : Project) (entries : List ZipFile) (env : Env) : UnzipResult :=
  match findGoMod (modFilePath p) entries with
  | none => unzipRest p entries env [] p.Module
  | some (_, f) =>
    if FsOp.entryOpen f.name ∈ env.fails then
      ⟨some (UErr.ioErr (FsOp.entryOpen f.name)), [], p.Module, p.Dest⟩
    else if FsOp.entryRead f.name ∈ env.fails then
      ⟨some (UErr.ioErr (FsOp.entryRead f.name)), [], p.Module, p.Dest⟩
    else
      let oldName := ModulePath f.content
      unzipRest p entries env oldName (if p.Module = [] then oldName else p.Module)

/-- The paths at which the extraction loop creates a directory or a file. -/
def createdPaths : List FsEvent → List (List Char)
  | [] => []
  | FsEvent.mkdir q :: es => q :: createdPaths es
  | FsEvent.create q _ :: es => q :: createdPaths es
  | FsEvent.write q _ :: es => q :: createdPaths es
  | _ :: es => createdPaths es

/-- Operations whose failure the source ignores (`os.MkdirAll` at line 263 and
`os.RemoveAll` at line 300 discard their error). -/
def ignoredOp : FsOp → Bool
  | FsOp.mkdirAll _ => true
  | FsOp.removeAll _ => true
  | _ => false

/-- Descriptor of the concrete scenario in the spec: remote
`github.com/old/demo`, branch `master`, destination `/dst`, explicit target
identity `github.com/new/app`. -/
def pDemo : Project :=
  ⟨"github.com/old/demo".toList, "master".toList, "/dst".toList, "github.com/new/app".toList⟩

def entDir : ZipFile := ⟨"demo-master/".toList, true, 493, []⟩

def entGoMod : ZipFile :=
  ⟨"demo-master/go.mod".toList, false, 420, "module github.com/old/demo".toList⟩

def entMainGo : ZipFile :=
  ⟨"demo-master/main.go".toList, false, 420,
    "package main // module github.com/old/demo is great".toList⟩

def demoEntries : List ZipFile := [entDir, entGoMod, entMainGo]

/-- Environment with no `GOPATH`, working directory `/cwd`, and no failing
operations. -/
def envOk : Env := ⟨[], "/cwd".toList, []⟩

/-- Variant of the demo descriptor whose target identity is left empty. -/
def pNoModule : Project :=
  ⟨"github.com/old/demo".toList, "master".toList, "/dst".toList, []⟩

/-- Archive without a manifest: the root directory and one source file. -/
def entriesNoManifest : List ZipFile := [entDir, entMainGo]

/-- Archive whose only entry is the manifest, hence at index 0. -/
def entriesManifestFirst : List ZipFile := [entGoMod]

/-- An archive entry whose name escapes the destination root. -/
def entEvil : ZipFile := ⟨"../evil".toList, false, 420, ("x".toList)⟩

/-- Environment in which creating the extracted root directory fails. -/
def envMkdirFail : Env :=
  ⟨[], "/cwd".toList, [FsOp.mkdirAll ("/dst/demo-master".toList)]⟩

/-- Archive with no manifest and a single small file, for exercising the
rewrite with an empty discovered identity. -/
def entSmall : ZipFile := ⟨"demo-master/x.txt".toList, false, 420, ("ab".toList)⟩

def pTinyModule : Project :=
  ⟨"github.com/old/demo".toList, "master".toList, "/dst".toList, ("m".toList)⟩

/-- A line (assumed free of `/*`) on which the `parseDeclaration` loop takes
the `continue` branch: either the keyword is not a prefix of the trimmed line,
or the argument is missing / not separated by white-space. -/
def contLine (declaration l : List Char) : Prop :=
  indexOfSub? multilineCommentStart (stripLineComment l) = none ∧
  (declaration.isPrefixOf (trimSpace (stripLineComment l)) = false ∨
   (lineToken declaration l).length =
     ((trimSpace (stripLineComment l)).drop declaration.length).length ∨
   (lineToken declaration l).length = 0)

instance (declaration l : List Char) : Decidable (contLine declaration l) := by
  unfold contLine
  exact inferInstance

/-- Join a list of lines, then a trailing text, with line feeds. -/
def joinLines : List (List Char) → List Char → List Char
  | [], t => t
  | l :: ls, t => l ++ '\n' :: joinLines ls t
theorem takeWhile_newline_split (l r : List Char) (h : ∀ c ∈ l, ¬ c = '\n') :
    (l ++ '\n' :: r).takeWhile notNewline = l ∧
    (l ++ '\n' :: r).dropWhile notNewline = '\n' :: r := by
  induction l with
  | nil => simp [notNewline, List.takeWhile, List.dropWhile]
  | cons c cs ih =>
    have hc : ¬ c = '\n' := h c (by simp)
    have ih₂ := ih (fun x hx => h x (by simp [hx]))
    simp [List.takeWhile, List.dropWhile, notNewline, hc, ih₂.1, ih₂.2]

theorem lineStep_cont_drop (d b rest : List Char)
    (h : lineStep d b = LineOutcome.cont rest) :
    ∃ i, rest = ((b.dropWhile notNewline).drop 1).drop i := by
  unfold lineStep at h
  cases h₁ : indexOfSub? multilineCommentStart (stripLineComment (b.takeWhile notNewline)) with
  | some j =>
    simp only [h₁] at h
    cases h₂ : indexOfSub? multilineCommentEnd ((b.dropWhile notNewline).drop 1) with
    | some i =>
      simp only [h₂] at h
      by_cases hi : 0 < i
      · rw [if_pos hi] at h
        exact ⟨i, by cases h; rfl⟩
      · rw [if_neg hi] at h
        exact ⟨0, by cases h; simp⟩
    | none =>
      simp only [h₂] at h
      exact ⟨0, by cases h; simp⟩
  | none =>
    simp only [h₁] at h
    by_cases hp : d.isPrefixOf (trimSpace (stripLineComment (b.takeWhile notNewline))) = true
    · rw [if_pos hp] at h
      by_cases hl : (lineToken d (b.takeWhile notNewline)).length = ((trimSpace (stripLineComment (b.takeWhile notNewline))).drop d.length).length ∨ (lineToken d (b.takeWhile notNewline)).length = 0
      · rw [if_pos hl] at h
        exact ⟨0, by cases h; simp⟩
      · rw [if_neg hl] at h
        cases ht : lineToken d (b.takeWhile notNewline) with
        | nil => simp only [ht] at h; exact ⟨0, by cases h; simp⟩
        | cons c cs =>
          simp only [ht] at h
          by_cases hq : c = quoteChar ∨ c = backquoteChar
          · rw [if_pos hq] at h; cases h
          · rw [if_neg hq] at h; cases h
    · rw [if_neg hp] at h
      exact ⟨0, by cases h; simp⟩
theorem dropWhile_drop_one_lt (b : List Char) (hb : ¬ b = []) :
    ((b.dropWhile notNewline).drop 1).length < b.length := by
  have h₁ : (b.dropWhile notNewline).length ≤ b.length :=
    (List.dropWhile_sublist (l := b) notNewline).length_le
  have h₂ : 0 < b.length := List.length_pos.mpr hb
  rw [List.length_drop]
  omega

theorem lineStep_cont_length (d b rest : List Char) (hb : ¬ b = [])
    (h : lineStep d b = LineOutcome.cont rest) : rest.length < b.length := by
  obtain ⟨i, hi⟩ := lineStep_cont_drop d b rest h
  have h₁ := dropWhile_drop_one_lt b hb
  have h₂ : rest.length ≤ ((b.dropWhile notNewline).drop 1).length := by
    rw [hi, List.length_drop]; omega
  omega

theorem lineStep_cont_is_drop (d b rest : List Char)
    (h : lineStep d b = LineOutcome.cont rest) : ∃ k, rest = b.drop k := by
  obtain ⟨i, hi⟩ := lineStep_cont_drop d b rest h
  obtain ⟨u, hu⟩ := List.dropWhile_suffix (l := b) notNewline
  refine ⟨u.length + 1 + i, ?_⟩
  have hdw : b.drop u.length = b.dropWhile notNewline := by
    conv_lhs => rw [← hu]
    exact List.drop_left u (b.dropWhile notNewline)
  rw [hi, ← hdw, List.drop_drop, List.drop_drop]
  congr 1
  omega

theorem parseDeclarationAux_fuel (d : List Char) :
    ∀ f₁ f₂ b, b.length < f₁ → b.length < f₂ →
      parseDeclarationAux d f₁ b = parseDeclarationAux d f₂ b := by
  intro f₁
  induction f₁ with
  | zero => intro f₂ b h₁ h₂; omega
  | succ g ih =>
    intro f₂ b h₁ h₂
    cases f₂ with
    | zero => omega
    | succ g₂ =>
      simp only [parseDeclarationAux]
      by_cases hb : b = []
      · simp [hb]
      · rw [if_neg hb, if_neg hb]
        cases hst : lineStep d b with
        | cont rest =>
          have hlt := lineStep_cont_length d b rest hb hst
          exact ih g₂ rest (by omega) (by omega)
        | done r => rfl

theorem parseDeclaration_step (d b : List Char) (hb : ¬ b = []) :
    parseDeclaration b d =
      match lineStep d b with
      | LineOutcome.cont rest => parseDeclaration rest d
      | LineOutcome.done r => r := by
  unfold parseDeclaration
  conv_lhs => rw [parseDeclarationAux]
  rw [if_neg hb]
  cases hst : lineStep d b with
  | cont rest =>
    have hlt := lineStep_cont_length d b rest hb hst
    exact parseDeclarationAux_fuel d b.length (rest.length + 1) rest hlt (by omega)
  | done r => rfl
theorem head_dropWhile_false (p : Char → Bool) :
    ∀ (l : List Char) (c : Char), (l.dropWhile p).head? = some c → p c = false := by
  intro l
  induction l with
  | nil => intro c h; simp [List.dropWhile] at h
  | cons a as ih =>
    intro c h
    by_cases ha : p a
    · rw [List.dropWhile_cons_of_pos ha] at h
      exact ih c h
    · rw [List.dropWhile_cons_of_neg ha] at h
      simp at h
      subst h
      cases hb : p a with
      | true => exact absurd hb ha
      | false => rfl

theorem head?_of_pfx (u v : List Char) (c : Char) (h : u <+: v)
    (hc : u.head? = some c) : v.head? = some c := by
  obtain ⟨t, rfl⟩ := h
  cases u with
  | nil => simp at hc
  | cons a as => simp at hc ⊢; exact hc

theorem reverse_dropWhile_isPrefix (p : Char → Bool) (u : List Char) :
    (u.reverse.dropWhile p).reverse <+: u := by
  obtain ⟨t, ht⟩ := List.dropWhile_suffix (l := u.reverse) p
  refine ⟨t.reverse, ?_⟩
  have := congrArg List.reverse ht
  simpa using this

theorem trimSpace_prefix_dropWhile (s : List Char) :
    trimSpace s <+: s.dropWhile isSpace := by
  unfold trimSpace
  exact reverse_dropWhile_isPrefix isSpace (s.dropWhile isSpace)

theorem trimSpace_isInfix (s : List Char) : trimSpace s <:+: s :=
  (trimSpace_prefix_dropWhile s).isInfix.trans (List.dropWhile_suffix isSpace).isInfix

theorem trimSpace_head? (s : List Char) (c : Char)
    (h : (trimSpace s).head? = some c) : isSpace c = false := by
  have hp := trimSpace_prefix_dropWhile s
  exact head_dropWhile_false isSpace s c (head?_of_pfx _ _ c hp h)

theorem trimSpace_getLast? (s : List Char) (c : Char)
    (h : (trimSpace s).getLast? = some c) : isSpace c = false := by
  unfold trimSpace at h
  rw [List.getLast?_reverse] at h
  exact head_dropWhile_false isSpace (s.dropWhile isSpace).reverse c h

theorem dropWhile_eq_self_of_head (p : Char → Bool) (s : List Char)
    (h : ∀ c, s.head? = some c → p c = false) : s.dropWhile p = s := by
  cases s with
  | nil => rfl
  | cons a as =>
    have ha : p a = false := h a (by simp)
    rw [List.dropWhile_cons_of_neg (by simp [ha])]

theorem trimSpace_eq_self (s : List Char)
    (h₁ : ∀ c, s.head? = some c → isSpace c = false)
    (h₂ : ∀ c, s.getLast? = some c → isSpace c = false) : trimSpace s = s := by
  unfold trimSpace
  rw [dropWhile_eq_self_of_head isSpace s h₁]
  rw [dropWhile_eq_self_of_head isSpace s.reverse (fun c hc => h₂ c (by rwa [List.head?_reverse] at hc))]
  exact List.reverse_reverse s

theorem getLast?_drop_eq (l : List Char) (k : Nat) (h : ¬ l.drop k = []) :
    (l.drop k).getLast? = l.getLast? := by
  obtain ⟨t, ht⟩ := List.drop_suffix k l
  conv_rhs => rw [← ht]
  exact (List.getLast?_append_of_ne_nil t h).symm
theorem stripLineComment_isPrefix (l : List Char) : stripLineComment l <+: l := by
  unfold stripLineComment
  cases indexOfSub? slashSlash l with
  | some i => exact List.take_prefix i l
  | none => exact List.prefix_refl l

theorem lineStep_done_inv (d b : List Char) (r : Option (List Char))
    (h : lineStep d b = LineOutcome.done r) :
    indexOfSub? multilineCommentStart (stripLineComment (b.takeWhile notNewline)) = none ∧
    d.isPrefixOf (trimSpace (stripLineComment (b.takeWhile notNewline))) = true ∧
    ¬((lineToken d (b.takeWhile notNewline)).length =
        ((trimSpace (stripLineComment (b.takeWhile notNewline))).drop d.length).length ∨
      (lineToken d (b.takeWhile notNewline)).length = 0) := by
  unfold lineStep at h
  cases h₁ : indexOfSub? multilineCommentStart (stripLineComment (b.takeWhile notNewline)) with
  | some j =>
    simp only [h₁] at h
    cases h₂ : indexOfSub? multilineCommentEnd ((b.dropWhile notNewline).drop 1) with
    | some i =>
      simp only [h₂] at h
      by_cases hi : 0 < i
      · rw [if_pos hi] at h; cases h
      · rw [if_neg hi] at h; cases h
    | none => simp only [h₂] at h; cases h
  | none =>
    simp only [h₁] at h
    by_cases hp : d.isPrefixOf (trimSpace (stripLineComment (b.takeWhile notNewline))) = true
    · rw [if_pos hp] at h
      by_cases hl : (lineToken d (b.takeWhile notNewline)).length =
          ((trimSpace (stripLineComment (b.takeWhile notNewline))).drop d.length).length ∨
          (lineToken d (b.takeWhile notNewline)).length = 0
      · rw [if_pos hl] at h; cases h
      · exact ⟨rfl, hp, hl⟩
    · rw [if_neg hp] at h; cases h

theorem H_transfer (d b : List Char) (k : Nat)
    (H : ∀ i, i < b.length → d.isPrefixOf (b.drop i) = true →
      ((b.drop (i + d.length)).head?.any (fun c => !isSpace c)) = true) :
    ∀ i, i < (b.drop k).length → d.isPrefixOf ((b.drop k).drop i) = true →
      (((b.drop k).drop (i + d.length)).head?.any (fun c => !isSpace c)) = true := by
  intro i hi hp
  rw [List.drop_drop] at hp ⊢
  have hlen : k + i < b.length := by
    rw [List.length_drop] at hi; omega
  have := H (k + i) hlen hp
  have e : k + (i + d.length) = k + i + d.length := by omega
  rw [e]
  exact this
theorem no_done_under_H (d b : List Char)
    (H : ∀ i, i < b.length → d.isPrefixOf (b.drop i) = true →
      ((b.drop (i + d.length)).head?.any (fun c => !isSpace c)) = true)
    (r : Option (List Char)) : ¬ lineStep d b = LineOutcome.done r := by
  intro h
  obtain ⟨h₁, hp, hlen⟩ := lineStep_done_inv d b r h
  have hdL : d <+: trimSpace (stripLineComment (b.takeWhile notNewline)) :=
    List.isPrefixOf_iff_prefix.mp hp
  obtain ⟨l₃, hl₃⟩ := hdL
  have hdrop : (trimSpace (stripLineComment (b.takeWhile notNewline))).drop d.length = l₃ := by
    rw [← hl₃]
    exact List.drop_left d l₃
  have htok : lineToken d (b.takeWhile notNewline) = trimSpace l₃ := by
    unfold lineToken
    rw [hdrop]
  cases l₃ with
  | nil =>
    refine hlen (Or.inr ?_)
    rw [htok]
    rfl
  | cons c l₃x =>
    have hinf : trimSpace (stripLineComment (b.takeWhile notNewline)) <:+: b :=
      (trimSpace_isInfix _).trans
        ((stripLineComment_isPrefix _).trans (List.takeWhile_prefix notNewline)).isInfix
    obtain ⟨u, v, huv⟩ := hinf
    have hbu : b.drop u.length = trimSpace (stripLineComment (b.takeWhile notNewline)) ++ v := by
      conv_lhs => rw [← huv]
      rw [List.append_assoc]
      exact List.drop_left u _
    have hblen : b.length =
        u.length + ((trimSpace (stripLineComment (b.takeWhile notNewline))).length + v.length) := by
      conv_lhs => rw [← huv]
      simp [List.length_append]
    have hLlen : 0 < (trimSpace (stripLineComment (b.takeWhile notNewline))).length := by
      rw [← hl₃]
      simp [List.length_append]
    have hiblen : u.length < b.length := by omega
    have hpref : d.isPrefixOf (b.drop u.length) = true := by
      rw [hbu, ← hl₃]
      exact List.isPrefixOf_iff_prefix.mpr ⟨(c :: l₃x) ++ v, by rw [List.append_assoc]⟩
    have hH := H u.length hiblen hpref
    have hdrop₂ : b.drop (u.length + d.length) = (c :: l₃x) ++ v := by
      rw [← List.drop_drop, hbu, ← hl₃, List.append_assoc]
      exact List.drop_left d _
    have hc : isSpace c = false := by
      rw [hdrop₂] at hH
      simpa using hH
    have hlast : ∀ x, (c :: l₃x).getLast? = some x → isSpace x = false := by
      intro x hx
      apply trimSpace_getLast? (stripLineComment (b.takeWhile notNewline)) x
      have h5 := getLast?_drop_eq (trimSpace (stripLineComment (b.takeWhile notNewline)))
        d.length (by rw [hdrop]; simp)
      rw [← h5, hdrop]
      exact hx
    have hhead : ∀ x, (c :: l₃x).head? = some x → isSpace x = false := by
      intro x hx
      simp at hx
      rw [← hx]
      exact hc
    have htrim : trimSpace (c :: l₃x) = c :: l₃x := trimSpace_eq_self _ hhead hlast
    refine hlen (Or.inl ?_)
    rw [htok, htrim, hdrop]
theorem lineStep_append_cont (d l r : List Char) (h : ∀ c ∈ l, ¬ c = '\n')
    (hc : contLine d l) : lineStep d (l ++ '\n' :: r) = LineOutcome.cont r := by
  obtain ⟨ht, hdw⟩ := takeWhile_newline_split l r h
  obtain ⟨h₁, h₂⟩ := hc
  unfold lineStep
  rw [ht, hdw]
  simp only [h₁, List.drop_succ_cons, List.drop_zero]
  rcases h₂ with hp | hl | hl
  · rw [hp]
    simp
  · by_cases hp2 : d.isPrefixOf (trimSpace (stripLineComment l)) = true
    · rw [if_pos hp2, if_pos (Or.inl hl)]
    · rw [if_neg hp2]
  · by_cases hp2 : d.isPrefixOf (trimSpace (stripLineComment l)) = true
    · rw [if_pos hp2, if_pos (Or.inr hl)]
    · rw [if_neg hp2]

theorem lineStep_comment_unterminated (d l r : List Char) (h : ∀ c ∈ l, ¬ c = '\n')
    (hs : ¬ indexOfSub? multilineCommentStart (stripLineComment l) = none)
    (he : indexOfSub? multilineCommentEnd r = none) :
    lineStep d (l ++ '\n' :: r) = LineOutcome.cont r := by
  obtain ⟨ht, hdw⟩ := takeWhile_newline_split l r h
  unfold lineStep
  rw [ht, hdw]
  cases hj : indexOfSub? multilineCommentStart (stripLineComment l) with
  | none => exact absurd hj hs
  | some j =>
    simp only [List.drop_succ_cons, List.drop_zero, he]

theorem lineStep_append_quote (d l r : List Char) (h : ∀ c ∈ l, ¬ c = '\n')
    (h₁ : indexOfSub? multilineCommentStart (stripLineComment l) = none)
    (hp : d.isPrefixOf (trimSpace (stripLineComment l)) = true)
    (hlen : ¬((lineToken d l).length =
        ((trimSpace (stripLineComment l)).drop d.length).length ∨
      (lineToken d l).length = 0))
    (hq : (lineToken d l).head?.any (fun c => c == quoteChar || c == backquoteChar) = true) :
    lineStep d (l ++ '\n' :: r) = LineOutcome.done (unquote (lineToken d l)) := by
  obtain ⟨ht, hdw⟩ := takeWhile_newline_split l r h
  unfold lineStep
  rw [ht, hdw]
  simp only [h₁]
  rw [if_pos hp, if_neg hlen]
  cases htk : lineToken d l with
  | nil => rw [htk] at hlen; simp at hlen
  | cons c cs =>
    rw [htk] at hq
    simp at hq
    have hq2 : c = quoteChar ∨ c = backquoteChar := by
      rcases hq with hq | hq
      · exact Or.inl hq
      · exact Or.inr hq
    show (if c = quoteChar ∨ c = backquoteChar then LineOutcome.done (unquote (c :: cs))
        else LineOutcome.done (some (c :: cs))) = LineOutcome.done (unquote (c :: cs))
    rw [if_pos hq2]

theorem parse_skip_contLines (d : List Char) (pre : List (List Char)) (t : List Char)
    (hpre : ∀ l ∈ pre, (∀ c ∈ l, ¬ c = '\n') ∧ contLine d l) :
    parseDeclaration (joinLines pre t) d = parseDeclaration t d := by
  induction pre with
  | nil => rfl
  | cons l ls ih =>
    have hl := hpre l (by simp)
    have hstep := lineStep_append_cont d l (joinLines ls t) hl.1 hl.2
    rw [show joinLines (l :: ls) t = l ++ '\n' :: joinLines ls t from rfl]
    rw [parseDeclaration_step d _ (by simp)]
    simp only [hstep]
    exact ih (fun x hx => hpre x (by simp [hx]))
/-- C5 (counterexample): the text `/*` followed by a line `module foo` has a
block-comment start with no end marker anywhere after it, yet the parse does
not stop: it still returns `foo`. -/
theorem C5_counterexample :
    parseDeclaration (("/*\nmodule foo").toList) moduleBytes = some (("foo").toList) ∧
    indexOfSub? multilineCommentEnd (("module foo").toList) = none := by
  refine ⟨by decide, by decide⟩

/-- C5 (amended): when a line contains a block-comment start and no end marker
occurs in the remaining text, only that line is discarded; scanning resumes at
the very next line, so a declaration after that point is still found. -/
theorem C5_unterminated_comment (d l r : List Char)
    (hl : ∀ c ∈ l, ¬ c = '\n')
    (hs : ¬ indexOfSub? multilineCommentStart (stripLineComment l) = none)
    (he : indexOfSub? multilineCommentEnd r = none) :
    parseDeclaration (l ++ '\n' :: r) d = parseDeclaration r d := by
  rw [parseDeclaration_step d _ (by simp)]
  rw [lineStep_comment_unterminated d l r hl hs he]

theorem C5_unterminated_comment_witness :
    parseDeclaration (("/* x\nmodule foo").toList) moduleBytes =
      parseDeclaration (("module foo").toList) moduleBytes := by
  have e : ("/* x\nmodule foo").toList = ("/* x").toList ++ '\n' :: ("module foo").toList := by
    decide
  rw [e]
  exact C5_unterminated_comment moduleBytes (("/* x").toList) (("module foo").toList)
    (by decide) (by decide) (by decide)

/-- C6: when every occurrence of the keyword in the text is immediately
followed by a non-white-space character (the keyword appears only as a proper
prefix of a longer token), `parseDeclaration` returns absent. -/
theorem C6_keyword_prefix_only (b d : List Char)
    (H : ∀ i, i < b.length → d.isPrefixOf (b.drop i) = true →
      ((b.drop (i + d.length)).head?.any (fun c => !isSpace c)) = true) :
    parseDeclaration b d = none := by
  suffices h : ∀ n b, b.length ≤ n →
      (∀ i, i < b.length → d.isPrefixOf (b.drop i) = true →
        ((b.drop (i + d.length)).head?.any (fun c => !isSpace c)) = true) →
      parseDeclaration b d = none from h b.length b le_rfl H
  intro n
  induction n with
  | zero =>
    intro b hb Hb
    have hbe : b = [] := List.length_eq_zero.mp (Nat.le_zero.mp hb)
    rw [hbe]
    rfl
  | succ n ih =>
    intro b hb Hb
    by_cases hbe : b = []
    · rw [hbe]
      rfl
    · rw [parseDeclaration_step d b hbe]
      cases hst : lineStep d b with
      | cont rest =>
        obtain ⟨k, hk⟩ := lineStep_cont_is_drop d b rest hst
        have hlt := lineStep_cont_length d b rest hbe hst
        subst hk
        exact ih (b.drop k) (by omega) (H_transfer d b k Hb)
      | done r => exact absurd hst (no_done_under_H d b Hb r)

theorem C6_keyword_prefix_only_witness :
    parseDeclaration (("moduleX\nmoduleY z").toList) moduleBytes = none :=
  C6_keyword_prefix_only (("moduleX\nmoduleY z").toList) moduleBytes (by decide)

/-- C7: if the lines before some line all take the continue branch, and that
line matches the keyword with an argument that starts with a quote or a
backquote but fails to unquote, the whole parse returns absent at once —
the following text `r` is arbitrary and is never scanned. -/
theorem C7_malformed_quote_aborts (d : List Char) (pre : List (List Char)) (l r : List Char)
    (hpre : ∀ x ∈ pre, (∀ c ∈ x, ¬ c = '\n') ∧ contLine d x)
    (hl : ∀ c ∈ l, ¬ c = '\n')
    (h₁ : indexOfSub? multilineCommentStart (stripLineComment l) = none)
    (hp : d.isPrefixOf (trimSpace (stripLineComment l)) = true)
    (hlen : ¬((lineToken d l).length =
        ((trimSpace (stripLineComment l)).drop d.length).length ∨
      (lineToken d l).length = 0))
    (hq : (lineToken d l).head?.any (fun c => c == quoteChar || c == backquoteChar) = true)
    (hu : unquote (lineToken d l) = none) :
    parseDeclaration (joinLines pre (l ++ '\n' :: r)) d = none := by
  rw [parse_skip_contLines d pre _ hpre]
  rw [parseDeclaration_step d _ (by simp)]
  rw [lineStep_append_quote d l r hl h₁ hp hlen hq]
  exact hu

theorem C7_malformed_quote_aborts_witness :
    parseDeclaration
      (joinLines [("x y").toList]
        ((("module \"abc").toList) ++ '\n' :: (("module ok").toList))) moduleBytes = none :=
  C7_malformed_quote_aborts moduleBytes [("x y").toList] (("module \"abc").toList)
    (("module ok").toList) (by decide) (by decide) (by decide) (by decide)
    (by decide) (by decide) (by decide)
theorem extractLoop_cons_bad (dest : List Char) (sr : Bool) (oldN newN : List Char)
    (env : Env) (f : ZipFile) (fs : List ZipFile)
    (h₁ : ¬ (clean dest ++ [pathSeparator]).isPrefixOf (join dest f.name) = true) :
    extractLoop dest sr oldN newN env (f :: fs) =
      ([], some (UErr.illegalPath (join dest f.name))) := by
  simp only [extractLoop]
  rw [if_neg h₁]

theorem extractLoop_cons_dir (dest : List Char) (sr : Bool) (oldN newN : List Char)
    (env : Env) (f : ZipFile) (fs : List ZipFile)
    (h₁ : (clean dest ++ [pathSeparator]).isPrefixOf (join dest f.name) = true)
    (h₂ : f.isDir = true) :
    extractLoop dest sr oldN newN env (f :: fs) =
      ((if FsOp.mkdirAll (join dest f.name) ∈ env.fails then []
        else [FsEvent.mkdir (join dest f.name)]) ++
          (extractLoop dest sr oldN newN env fs).1,
        (extractLoop dest sr oldN newN env fs).2) := by
  simp only [extractLoop]
  rw [if_pos h₁, if_pos h₂]

theorem extractLoop_cons_openFail (dest : List Char) (sr : Bool) (oldN newN : List Char)
    (env : Env) (f : ZipFile) (fs : List ZipFile)
    (h₁ : (clean dest ++ [pathSeparator]).isPrefixOf (join dest f.name) = true)
    (h₂ : ¬ f.isDir = true)
    (h₃ : FsOp.openFile (join dest f.name) ∈ env.fails) :
    extractLoop dest sr oldN newN env (f :: fs) =
      ([], some (UErr.ioErr (FsOp.openFile (join dest f.name)))) := by
  simp only [extractLoop]
  rw [if_pos h₁, if_neg h₂, if_pos h₃]

theorem extractLoop_cons_entryOpenFail (dest : List Char) (sr : Bool) (oldN newN : List Char)
    (env : Env) (f : ZipFile) (fs : List ZipFile)
    (h₁ : (clean dest ++ [pathSeparator]).isPrefixOf (join dest f.name) = true)
    (h₂ : ¬ f.isDir = true)
    (h₃ : ¬ FsOp.openFile (join dest f.name) ∈ env.fails)
    (h₄ : FsOp.entryOpen f.name ∈ env.fails) :
    extractLoop dest sr oldN newN env (f :: fs) =
      ([FsEvent.create (join dest f.name) f.mode],
        some (UErr.ioErr (FsOp.entryOpen f.name))) := by
  simp only [extractLoop]
  rw [if_pos h₁, if_neg h₂, if_neg h₃, if_pos h₄]

theorem extractLoop_cons_readFail (dest : List Char) (sr : Bool) (oldN newN : List Char)
    (env : Env) (f : ZipFile) (fs : List ZipFile)
    (h₁ : (clean dest ++ [pathSeparator]).isPrefixOf (join dest f.name) = true)
    (h₂ : ¬ f.isDir = true)
    (h₃ : ¬ FsOp.openFile (join dest f.name) ∈ env.fails)
    (h₄ : ¬ FsOp.entryOpen f.name ∈ env.fails)
    (h₅ : sr = true ∧ FsOp.entryRead f.name ∈ env.fails) :
    extractLoop dest sr oldN newN env (f :: fs) =
      ([FsEvent.create (join dest f.name) f.mode],
        some (UErr.ioErr (FsOp.entryRead f.name))) := by
  simp only [extractLoop]
  rw [if_pos h₁, if_neg h₂, if_neg h₃, if_neg h₄, if_pos h₅]

theorem extractLoop_cons_copyFail (dest : List Char) (sr : Bool) (oldN newN : List Char)
    (env : Env) (f : ZipFile) (fs : List ZipFile)
    (h₁ : (clean dest ++ [pathSeparator]).isPrefixOf (join dest f.name) = true)
    (h₂ : ¬ f.isDir = true)
    (h₃ : ¬ FsOp.openFile (join dest f.name) ∈ env.fails)
    (h₄ : ¬ FsOp.entryOpen f.name ∈ env.fails)
    (h₅ : ¬ (sr = true ∧ FsOp.entryRead f.name ∈ env.fails))
    (h₆ : FsOp.copy (join dest f.name) ∈ env.fails) :
    extractLoop dest sr oldN newN env (f :: fs) =
      ([FsEvent.create (join dest f.name) f.mode],
        some (UErr.ioErr (FsOp.copy (join dest f.name)))) := by
  simp only [extractLoop]
  rw [if_pos h₁, if_neg h₂, if_neg h₃, if_neg h₄, if_neg h₅, if_pos h₆]

theorem extractLoop_cons_ok (dest : List Char) (sr : Bool) (oldN newN : List Char)
    (env : Env) (f : ZipFile) (fs : List ZipFile)
    (h₁ : (clean dest ++ [pathSeparator]).isPrefixOf (join dest f.name) = true)
    (h₂ : ¬ f.isDir = true)
    (h₃ : ¬ FsOp.openFile (join dest f.name) ∈ env.fails)
    (h₄ : ¬ FsOp.entryOpen f.name ∈ env.fails)
    (h₅ : ¬ (sr = true ∧ FsOp.entryRead f.name ∈ env.fails))
    (h₆ : ¬ FsOp.copy (join dest f.name) ∈ env.fails) :
    extractLoop dest sr oldN newN env (f :: fs) =
      (FsEvent.create (join dest f.name) f.mode ::
        FsEvent.write (join dest f.name)
          (if sr then replaceAll f.content oldN newN else f.content) ::
          (extractLoop dest sr oldN newN env fs).1,
        (extractLoop dest sr oldN newN env fs).2) := by
  simp only [extractLoop]
  rw [if_pos h₁, if_neg h₂, if_neg h₃, if_neg h₄, if_neg h₅, if_neg h₆]
theorem extractLoop_event_inv (dest : List Char) (sr : Bool) (oldN newN : List Char) (env : Env) :
    ∀ fs e, e ∈ (extractLoop dest sr oldN newN env fs).1 →
      ∃ f, f ∈ fs ∧
        (clean dest ++ [pathSeparator]).isPrefixOf (join dest f.name) = true ∧
        (e = FsEvent.mkdir (join dest f.name) ∨
         e = FsEvent.create (join dest f.name) f.mode ∨
         (e = FsEvent.write (join dest f.name)
            (if sr then replaceAll f.content oldN newN else f.content) ∧
          ¬ FsOp.openFile (join dest f.name) ∈ env.fails ∧
          ¬ FsOp.copy (join dest f.name) ∈ env.fails)) := by
  intro fs
  induction fs with
  | nil => intro e h; simp [extractLoop] at h
  | cons f fs ih =>
    intro e h
    by_cases h₁ : (clean dest ++ [pathSeparator]).isPrefixOf (join dest f.name) = true
    · by_cases h₂ : f.isDir = true
      · rw [extractLoop_cons_dir dest sr oldN newN env f fs h₁ h₂] at h
        rcases List.mem_append.mp h with hm | hm
        · refine ⟨f, by simp, h₁, Or.inl ?_⟩
          by_cases hk : FsOp.mkdirAll (join dest f.name) ∈ env.fails
          · rw [if_pos hk] at hm
            simp at hm
          · rw [if_neg hk] at hm
            simpa using hm
        · obtain ⟨g, hg, hrest⟩ := ih e hm
          exact ⟨g, by simp [hg], hrest⟩
      · by_cases h₃ : FsOp.openFile (join dest f.name) ∈ env.fails
        · rw [extractLoop_cons_openFail dest sr oldN newN env f fs h₁ h₂ h₃] at h
          simp at h
        · by_cases h₄ : FsOp.entryOpen f.name ∈ env.fails
          · rw [extractLoop_cons_entryOpenFail dest sr oldN newN env f fs h₁ h₂ h₃ h₄] at h
            simp at h
            exact ⟨f, by simp, h₁, Or.inr (Or.inl h)⟩
          · by_cases h₅ : sr = true ∧ FsOp.entryRead f.name ∈ env.fails
            · rw [extractLoop_cons_readFail dest sr oldN newN env f fs h₁ h₂ h₃ h₄ h₅] at h
              simp at h
              exact ⟨f, by simp, h₁, Or.inr (Or.inl h)⟩
            · by_cases h₆ : FsOp.copy (join dest f.name) ∈ env.fails
              · rw [extractLoop_cons_copyFail dest sr oldN newN env f fs h₁ h₂ h₃ h₄ h₅ h₆] at h
                simp at h
                exact ⟨f, by simp, h₁, Or.inr (Or.inl h)⟩
              · rw [extractLoop_cons_ok dest sr oldN newN env f fs h₁ h₂ h₃ h₄ h₅ h₆] at h
                rcases List.mem_cons.mp h with hm | hm
                · exact ⟨f, by simp, h₁, Or.inr (Or.inl hm)⟩
                · rcases List.mem_cons.mp hm with hm₂ | hm₂
                  · exact ⟨f, by simp, h₁, Or.inr (Or.inr ⟨hm₂, h₃, h₆⟩)⟩
                  · obtain ⟨g, hg, hrest⟩ := ih e hm₂
                    exact ⟨g, by simp [hg], hrest⟩
    · rw [extractLoop_cons_bad dest sr oldN newN env f fs h₁] at h
      simp at h
theorem extractLoop_err_inv (dest : List Char) (sr : Bool) (oldN newN : List Char) (env : Env) :
    ∀ fs op, (extractLoop dest sr oldN newN env fs).2 = some (UErr.ioErr op) →
      op ∈ env.fails ∧ ignoredOp op = false := by
  intro fs
  induction fs with
  | nil => intro op h; simp [extractLoop] at h
  | cons f fs ih =>
    intro op h
    by_cases h₁ : (clean dest ++ [pathSeparator]).isPrefixOf (join dest f.name) = true
    · by_cases h₂ : f.isDir = true
      · rw [extractLoop_cons_dir dest sr oldN newN env f fs h₁ h₂] at h
        exact ih op h
      · by_cases h₃ : FsOp.openFile (join dest f.name) ∈ env.fails
        · rw [extractLoop_cons_openFail dest sr oldN newN env f fs h₁ h₂ h₃] at h
          simp at h
          rw [← h]
          exact ⟨h₃, rfl⟩
        · by_cases h₄ : FsOp.entryOpen f.name ∈ env.fails
          · rw [extractLoop_cons_entryOpenFail dest sr oldN newN env f fs h₁ h₂ h₃ h₄] at h
            simp at h
            rw [← h]
            exact ⟨h₄, rfl⟩
          · by_cases h₅ : sr = true ∧ FsOp.entryRead f.name ∈ env.fails
            · rw [extractLoop_cons_readFail dest sr oldN newN env f fs h₁ h₂ h₃ h₄ h₅] at h
              simp at h
              rw [← h]
              exact ⟨h₅.2, rfl⟩
            · by_cases h₆ : FsOp.copy (join dest f.name) ∈ env.fails
              · rw [extractLoop_cons_copyFail dest sr oldN newN env f fs h₁ h₂ h₃ h₄ h₅ h₆] at h
                simp at h
                rw [← h]
                exact ⟨h₆, rfl⟩
              · rw [extractLoop_cons_ok dest sr oldN newN env f fs h₁ h₂ h₃ h₄ h₅ h₆] at h
                exact ih op h
    · rw [extractLoop_cons_bad dest sr oldN newN env f fs h₁] at h
      simp at h

theorem extractLoop_err_of_bad (dest : List Char) (sr : Bool) (oldN newN : List Char) (env : Env) :
    ∀ fs, (∃ f ∈ fs, ¬ (clean dest ++ [pathSeparator]).isPrefixOf (join dest f.name) = true) →
      ¬ (extractLoop dest sr oldN newN env fs).2 = none := by
  intro fs
  induction fs with
  | nil => intro h; simp at h
  | cons f fs ih =>
    intro hbad
    obtain ⟨g, hg, hgbad⟩ := hbad
    by_cases h₁ : (clean dest ++ [pathSeparator]).isPrefixOf (join dest f.name) = true
    · have hgfs : g ∈ fs := by
        rcases List.mem_cons.mp hg with rfl | hgfs
        · exact absurd h₁ hgbad
        · exact hgfs
      have ihg := ih ⟨g, hgfs, hgbad⟩
      by_cases h₂ : f.isDir = true
      · rw [extractLoop_cons_dir dest sr oldN newN env f fs h₁ h₂]
        exact ihg
      · by_cases h₃ : FsOp.openFile (join dest f.name) ∈ env.fails
        · rw [extractLoop_cons_openFail dest sr oldN newN env f fs h₁ h₂ h₃]
          simp
        · by_cases h₄ : FsOp.entryOpen f.name ∈ env.fails
          · rw [extractLoop_cons_entryOpenFail dest sr oldN newN env f fs h₁ h₂ h₃ h₄]
            simp
          · by_cases h₅ : sr = true ∧ FsOp.entryRead f.name ∈ env.fails
            · rw [extractLoop_cons_readFail dest sr oldN newN env f fs h₁ h₂ h₃ h₄ h₅]
              simp
            · by_cases h₆ : FsOp.copy (join dest f.name) ∈ env.fails
              · rw [extractLoop_cons_copyFail dest sr oldN newN env f fs h₁ h₂ h₃ h₄ h₅ h₆]
                simp
              · rw [extractLoop_cons_ok dest sr oldN newN env f fs h₁ h₂ h₃ h₄ h₅ h₆]
                exact ihg
    · rw [extractLoop_cons_bad dest sr oldN newN env f fs h₁]
      simp

theorem extractLoop_illegal_of_bad (dest : List Char) (sr : Bool) (oldN newN : List Char)
    (env : Env) (hf : env.fails = []) :
    ∀ fs, (∃ f ∈ fs, ¬ (clean dest ++ [pathSeparator]).isPrefixOf (join dest f.name) = true) →
      ∃ q, (extractLoop dest sr oldN newN env fs).2 = some (UErr.illegalPath q) ∧
        ¬ (clean dest ++ [pathSeparator]).isPrefixOf q = true := by
  intro fs
  induction fs with
  | nil => intro h; simp at h
  | cons f fs ih =>
    intro hbad
    by_cases h₁ : (clean dest ++ [pathSeparator]).isPrefixOf (join dest f.name) = true
    · obtain ⟨g, hg, hgbad⟩ := hbad
      have hgfs : g ∈ fs := by
        rcases List.mem_cons.mp hg with rfl | hgfs
        · exact absurd h₁ hgbad
        · exact hgfs
      have ihg := ih ⟨g, hgfs, hgbad⟩
      have h₃ : ¬ FsOp.openFile (join dest f.name) ∈ env.fails := by rw [hf]; simp
      have h₄ : ¬ FsOp.entryOpen f.name ∈ env.fails := by rw [hf]; simp
      have h₅ : ¬ (sr = true ∧ FsOp.entryRead f.name ∈ env.fails) := by rw [hf]; simp
      have h₆ : ¬ FsOp.copy (join dest f.name) ∈ env.fails := by rw [hf]; simp
      by_cases h₂ : f.isDir = true
      · rw [extractLoop_cons_dir dest sr oldN newN env f fs h₁ h₂]
        exact ihg
      · rw [extractLoop_cons_ok dest sr oldN newN env f fs h₁ h₂ h₃ h₄ h₅ h₆]
        exact ihg
    · refine ⟨join dest f.name, ?_, h₁⟩
      rw [extractLoop_cons_bad dest sr oldN newN env f fs h₁]

theorem createdPaths_mem (evs : List FsEvent) (q : List Char) (h : q ∈ createdPaths evs) :
    ∃ e ∈ evs, e = FsEvent.mkdir q ∨ (∃ m, e = FsEvent.create q m) ∨
      ∃ c, e = FsEvent.write q c := by
  induction evs with
  | nil => simp [createdPaths] at h
  | cons e es ih =>
    cases e with
    | mkdir x =>
      rw [show createdPaths (FsEvent.mkdir x :: es) = x :: createdPaths es from rfl] at h
      rcases List.mem_cons.mp h with rfl | h₂
      · exact ⟨FsEvent.mkdir q, by simp, Or.inl rfl⟩
      · obtain ⟨e₂, he₂, hd⟩ := ih h₂
        exact ⟨e₂, by simp [he₂], hd⟩
    | create x m =>
      rw [show createdPaths (FsEvent.create x m :: es) = x :: createdPaths es from rfl] at h
      rcases List.mem_cons.mp h with rfl | h₂
      · exact ⟨FsEvent.create q m, by simp, Or.inr (Or.inl ⟨m, rfl⟩)⟩
      · obtain ⟨e₂, he₂, hd⟩ := ih h₂
        exact ⟨e₂, by simp [he₂], hd⟩
    | write x c =>
      rw [show createdPaths (FsEvent.write x c :: es) = x :: createdPaths es from rfl] at h
      rcases List.mem_cons.mp h with rfl | h₂
      · exact ⟨FsEvent.write q c, by simp, Or.inr (Or.inr ⟨c, rfl⟩)⟩
      · obtain ⟨e₂, he₂, hd⟩ := ih h₂
        exact ⟨e₂, by simp [he₂], hd⟩
    | removeAll x =>
      rw [show createdPaths (FsEvent.removeAll x :: es) = createdPaths es from rfl] at h
      obtain ⟨e₂, he₂, hd⟩ := ih h
      exact ⟨e₂, by simp [he₂], hd⟩
    | rename a b =>
      rw [show createdPaths (FsEvent.rename a b :: es) = createdPaths es from rfl] at h
      obtain ⟨e₂, he₂, hd⟩ := ih h
      exact ⟨e₂, by simp [he₂], hd⟩
theorem createdPaths_of_mem (evs : List FsEvent) (path : List Char) (e : FsEvent)
    (he : e ∈ evs)
    (hd : e = FsEvent.mkdir path ∨ (∃ m, e = FsEvent.create path m) ∨
      ∃ c, e = FsEvent.write path c) :
    path ∈ createdPaths evs := by
  revert he
  induction evs with
  | nil => intro he; simp at he
  | cons e₀ es ih =>
    intro he
    rcases List.mem_cons.mp he with rfl | hmem
    · rcases hd with hd | ⟨m, hd⟩ | ⟨c, hd⟩ <;> subst hd <;> simp [createdPaths]
    · have hmem₂ := ih hmem
      cases e₀ <;> simp [createdPaths] at hmem₂ ⊢ <;> simp [hmem₂]

theorem unzipRest_dest (p : Project) (entries : List ZipFile) (env : Env)
    (oldName newMod : List Char) :
    (unzipRest p entries env oldName newMod).dest = resolveDest p newMod env := by
  simp only [unzipRest]
  split
  · rfl
  · split
    · rfl
    · rfl

theorem unzipRest_module (p : Project) (entries : List ZipFile) (env : Env)
    (oldName newMod : List Char) :
    (unzipRest p entries env oldName newMod).module = newMod := by
  simp only [unzipRest]
  split
  · rfl
  · split
    · rfl
    · rfl

theorem unzipRest_write_mem (p : Project) (entries : List ZipFile) (env : Env)
    (oldName newMod path c : List Char)
    (h : FsEvent.write path c ∈ (unzipRest p entries env oldName newMod).events) :
    FsEvent.write path c ∈
      (extractLoop (resolveDest p newMod env) (decide (¬ oldName = newMod))
        oldName newMod env entries).1 := by
  simp only [unzipRest] at h
  revert h
  split
  · intro h
    exact h
  · split
    · intro h
      rcases List.mem_append.mp h with h₂ | h₂
      · exact h₂
      · revert h₂
        split
        · intro h₂
          simp at h₂
        · intro h₂
          simp at h₂
    · intro h
      rcases List.mem_append.mp h with h₂ | h₂
      · rcases List.mem_append.mp h₂ with h₃ | h₃
        · exact h₃
        · revert h₃
          split
          · intro h₃
            simp at h₃
          · intro h₃
            simp at h₃
      · simp at h₂

theorem unzipRest_createdPaths (p : Project) (entries : List ZipFile) (env : Env)
    (oldName newMod path : List Char)
    (h : path ∈ createdPaths (unzipRest p entries env oldName newMod).events) :
    path ∈ createdPaths
      (extractLoop (resolveDest p newMod env) (decide (¬ oldName = newMod))
        oldName newMod env entries).1 := by
  obtain ⟨e, he, hd⟩ := createdPaths_mem _ path h
  have he₂ : e ∈ (extractLoop (resolveDest p newMod env) (decide (¬ oldName = newMod))
      oldName newMod env entries).1 := by
    revert he
    simp only [unzipRest]
    split
    · intro he
      exact he
    · split
      · intro he
        rcases List.mem_append.mp he with h₂ | h₂
        · exact h₂
        · revert h₂
          split
          · intro h₂
            simp at h₂
          · intro h₂
            simp only [List.mem_singleton] at h₂
            subst h₂
            rcases hd with hd | ⟨m, hd⟩ | ⟨c, hd⟩ <;> cases hd
      · intro he
        rcases List.mem_append.mp he with h₂ | h₂
        · rcases List.mem_append.mp h₂ with h₃ | h₃
          · exact h₃
          · revert h₃
            split
            · intro h₃
              simp at h₃
            · intro h₃
              simp only [List.mem_singleton] at h₃
              subst h₃
              rcases hd with hd | ⟨m, hd⟩ | ⟨c, hd⟩ <;> cases hd
        · simp only [List.mem_singleton] at h₂
          subst h₂
          rcases hd with hd | ⟨m, hd⟩ | ⟨c, hd⟩ <;> cases hd
  exact createdPaths_of_mem _ path e he₂ hd
theorem unzipRest_err_some (p : Project) (entries : List ZipFile) (env : Env)
    (oldName newMod : List Char) (e : UErr)
    (h : (extractLoop (resolveDest p newMod env) (decide (¬ oldName = newMod))
      oldName newMod env entries).2 = some e) :
    (unzipRest p entries env oldName newMod).err = some e := by
  simp only [unzipRest, h]

theorem unzipRest_err_ioErr_inv (p : Project) (entries : List ZipFile) (env : Env)
    (oldName newMod : List Char) (op : FsOp)
    (h : (unzipRest p entries env oldName newMod).err = some (UErr.ioErr op)) :
    op ∈ env.fails ∧ ignoredOp op = false := by
  revert h
  simp only [unzipRest]
  split
  · rename_i e heq
    intro h
    simp only at h
    rw [h] at heq
    exact extractLoop_err_inv _ _ _ _ _ entries op heq
  · rename_i heq
    split
    · rename_i hrn
      intro h
      simp only at h
      have h₂ : FsOp.rename (join (resolveDest p newMod env) (compressedRootFolder p))
          (join (resolveDest p newMod env) (base newMod)) = op := by
        injection h with hx
        injection hx with hy
      rw [← h₂]
      exact ⟨hrn, rfl⟩
    · intro h
      simp at h

theorem replaceAllAux_nil_eq (new : List Char) :
    ∀ fuel s, s.length < fuel → replaceAllAux [] new fuel s = interleaved new s := by
  intro fuel
  induction fuel with
  | zero => intro s h; omega
  | succ n ih =>
    intro s h
    cases s with
    | nil => simp [replaceAllAux, interleaved]
    | cons c cs =>
      have hc : cs.length < n := by simp at h; omega
      simp [replaceAllAux, interleaved, ih cs hc]

theorem replaceAll_nil_eq (new s : List Char) :
    replaceAll s [] new = interleaved new s :=
  replaceAllAux_nil_eq new (s.length + 1) s (by omega)

theorem interleaved_length (new : List Char) :
    ∀ s : List Char, (interleaved new s).length = new.length * (s.length + 1) + s.length := by
  intro s
  induction s with
  | nil => simp [interleaved]
  | cons c cs ih =>
    simp only [interleaved, List.length_append, List.length_cons, ih]
    ring

theorem interleaved_ne (new s : List Char) (hnew : ¬ new = []) :
    ¬ interleaved new s = s := by
  intro h
  have hlen := congrArg List.length h
  rw [interleaved_length] at hlen
  have hl : 0 < new.length := List.length_pos.mpr hnew
  have hz : new.length * (s.length + 1) = 0 := by omega
  rcases Nat.mul_eq_zero.mp hz with hz₂ | hz₂
  · omega
  · omega
theorem unzip_cases (p : Project) (entries : List ZipFile) (env : Env) :
    unzip p entries env =
      unzipRest p entries env (discoveredOld p entries) (resolvedModule p entries) ∨
    ((unzip p entries env).events = [] ∧ (unzip p entries env).dest = p.Dest ∧
      ∃ op, (unzip p entries env).err = some (UErr.ioErr op) ∧
        op ∈ env.fails ∧ ignoredOp op = false) := by
  cases hfind : findGoMod (modFilePath p) entries with
  | none =>
    left
    have hold : discoveredOld p entries = [] := by
      unfold discoveredOld
      rw [hfind]
    have hres : resolvedModule p entries = p.Module := by
      unfold resolvedModule
      by_cases hm : p.Module = []
      · rw [if_pos hm, hold, hm]
      · rw [if_neg hm]
    simp only [unzip, hfind, hold, hres]
  | some q =>
    obtain ⟨i, f⟩ := q
    have hold : discoveredOld p entries = ModulePath f.content := by
      unfold discoveredOld
      rw [hfind]
    have hres : resolvedModule p entries =
        (if p.Module = [] then ModulePath f.content else p.Module) := by
      unfold resolvedModule
      rw [hold]
    by_cases ho : FsOp.entryOpen f.name ∈ env.fails
    · right
      simp only [unzip, hfind, if_pos ho]
      exact ⟨trivial, trivial, FsOp.entryOpen f.name, rfl, ho, rfl⟩
    · by_cases hr : FsOp.entryRead f.name ∈ env.fails
      · right
        simp only [unzip, hfind, if_neg ho, if_pos hr]
        exact ⟨trivial, trivial, FsOp.entryRead f.name, rfl, hr, rfl⟩
      · left
        simp only [unzip, hfind, if_neg ho, if_neg hr, hold, hres]

theorem scanFrom_some_inv (modFile : List Char) (entries : List ZipFile) :
    ∀ k i f, scanFrom modFile entries k = some (i, f) →
      0 < i ∧ i ≤ k ∧ entries.get? i = some f ∧ clean f.name = modFile ∧
      ∀ j g, i < j → j ≤ k → entries.get? j = some g → ¬ clean g.name = modFile := by
  intro k
  induction k with
  | zero => intro i f h; simp [scanFrom] at h
  | succ n ih =>
    intro i f h
    cases hg : entries.get? (n + 1) with
    | some f₀ =>
      simp only [scanFrom, hg] at h
      by_cases hc : clean f₀.name = modFile
      · rw [if_pos hc] at h
        simp only [Option.some.injEq, Prod.mk.injEq] at h
        obtain ⟨hi, hf⟩ := h
        subst hi
        subst hf
        refine ⟨by omega, le_refl _, hg, hc, ?_⟩
        intro j g hj hjn
        omega
      · rw [if_neg hc] at h
        obtain ⟨hi0, hin, hget, hcl, hmax⟩ := ih i f h
        refine ⟨hi0, by omega, hget, hcl, ?_⟩
        intro j g hj hjn hgj
        by_cases hj2 : j = n + 1
        · subst hj2
          rw [hg] at hgj
          injection hgj with he
          rw [← he]
          exact hc
        · exact hmax j g hj (by omega) hgj
    | none =>
      simp only [scanFrom, hg] at h
      obtain ⟨hi0, hin, hget, hcl, hmax⟩ := ih i f h
      refine ⟨hi0, by omega, hget, hcl, ?_⟩
      intro j g hj hjn hgj
      by_cases hj2 : j = n + 1
      · subst hj2
        rw [hg] at hgj
        cases hgj
      · exact hmax j g hj (by omega) hgj

theorem scanFrom_finds (modFile : List Char) (entries : List ZipFile) :
    ∀ k i f, i ≤ k → 0 < i → entries.get? i = some f → clean f.name = modFile →
      ¬ scanFrom modFile entries k = none := by
  intro k
  induction k with
  | zero => intro i f hik hi0 _ _; omega
  | succ n ih =>
    intro i f hik hi0 hget hcl
    cases hg : entries.get? (n + 1) with
    | some f₀ =>
      simp only [scanFrom, hg]
      by_cases hc : clean f₀.name = modFile
      · rw [if_pos hc]
        simp
      · rw [if_neg hc]
        by_cases hi2 : i = n + 1
        · subst hi2
          rw [hg] at hget
          injection hget with he
          subst he
          exact absurd hcl hc
        · exact ih i f (by omega) hi0 hget hcl
    | none =>
      simp only [scanFrom, hg]
      by_cases hi2 : i = n + 1
      · subst hi2
        rw [hg] at hget
        cases hget
      · exact ih i f (by omega) hi0 hget hcl
/-- C1: every directory or file created by the extraction loop lies strictly
inside the resolved destination (its path extends `Clean(dest) + "/"`), and an
entry whose joined path escapes the destination makes the run fail — with no
other injected failures, specifically with the `illegal path` traversal
error naming an escaping path. -/
theorem C1_path_traversal_safety (p : Project) (entries : List ZipFile) (env : Env) :
    (∀ q ∈ createdPaths (unzip p entries env).events,
      (clean (unzip p entries env).dest ++ [pathSeparator]).isPrefixOf q = true) ∧
    (∀ f ∈ entries,
      ¬ (clean (unzip p entries env).dest ++ [pathSeparator]).isPrefixOf
          (join (unzip p entries env).dest f.name) = true →
      ¬ (unzip p entries env).err = none) ∧
    (env.fails = [] → ∀ f ∈ entries,
      ¬ (clean (unzip p entries env).dest ++ [pathSeparator]).isPrefixOf
          (join (unzip p entries env).dest f.name) = true →
      ∃ q, (unzip p entries env).err = some (UErr.illegalPath q) ∧
        ¬ (clean (unzip p entries env).dest ++ [pathSeparator]).isPrefixOf q = true) := by
  rcases unzip_cases p entries env with hu | ⟨hev, hdst, op, herr, hop, hig⟩
  · rw [hu, unzipRest_dest]
    refine ⟨?_, ?_, ?_⟩
    · intro q hq
      have hq₂ := unzipRest_createdPaths p entries env
        (discoveredOld p entries) (resolvedModule p entries) q hq
      obtain ⟨e, he, hd⟩ := createdPaths_mem _ q hq₂
      obtain ⟨f, hf, hpfx, hforms⟩ := extractLoop_event_inv _ _ _ _ env entries e he
      rcases hd with hd | ⟨m, hd⟩ | ⟨c, hd⟩
      · subst hd
        rcases hforms with hx | hx | ⟨hx, _, _⟩
        · simp only [FsEvent.mkdir.injEq] at hx
          rw [hx]
          exact hpfx
        · simp at hx
        · simp at hx
      · subst hd
        rcases hforms with hx | hx | ⟨hx, _, _⟩
        · simp at hx
        · simp only [FsEvent.create.injEq] at hx
          rw [hx.1]
          exact hpfx
        · simp at hx
      · subst hd
        rcases hforms with hx | hx | ⟨hx, _, _⟩
        · simp at hx
        · simp at hx
        · simp only [FsEvent.write.injEq] at hx
          rw [hx.1]
          exact hpfx
    · intro f hf hbad
      have hnn := extractLoop_err_of_bad (resolveDest p (resolvedModule p entries) env)
        (decide (¬ discoveredOld p entries = resolvedModule p entries))
        (discoveredOld p entries) (resolvedModule p entries) env entries ⟨f, hf, hbad⟩
      cases hloop : (extractLoop (resolveDest p (resolvedModule p entries) env)
          (decide (¬ discoveredOld p entries = resolvedModule p entries))
          (discoveredOld p entries) (resolvedModule p entries) env entries).2 with
      | none => exact absurd hloop hnn
      | some e =>
        rw [unzipRest_err_some p entries env _ _ e hloop]
        simp
    · intro hfail f hf hbad
      obtain ⟨q, hq, hqbad⟩ := extractLoop_illegal_of_bad
        (resolveDest p (resolvedModule p entries) env)
        (decide (¬ discoveredOld p entries = resolvedModule p entries))
        (discoveredOld p entries) (resolvedModule p entries) env hfail entries ⟨f, hf, hbad⟩
      exact ⟨q, by rw [unzipRest_err_some p entries env _ _ _ hq], hqbad⟩
  · refine ⟨?_, ?_, ?_⟩
    · intro q hq
      rw [hev] at hq
      simp [createdPaths] at hq
    · intro f hf hbad
      rw [herr]
      simp
    · intro hfail
      rw [hfail] at hop
      simp at hop

theorem C1_path_traversal_safety_witness :
    envOk.fails = [] ∧
    ∃ q, (unzip pDemo [entEvil] envOk).err = some (UErr.illegalPath q) ∧
      ¬ (clean (unzip pDemo [entEvil] envOk).dest ++ [pathSeparator]).isPrefixOf q = true :=
  ⟨rfl, (C1_path_traversal_safety pDemo [entEvil] envOk).2.2 rfl entEvil (by decide) (by decide)⟩

/-- C2: on the concrete demo archive with target identity
`github.com/new/app`, unzip succeeds, writes `main.go` with every occurrence
of the old identity replaced, and renames the extracted root to `app`. -/
theorem C2_concrete_scenario :
    (unzip pDemo demoEntries envOk).err = none ∧
    FsEvent.write ("/dst/demo-master/main.go".toList)
        ("package main // module github.com/new/app is great".toList) ∈
      (unzip pDemo demoEntries envOk).events ∧
    FsEvent.rename ("/dst/demo-master".toList) ("/dst/app".toList) ∈
      (unzip pDemo demoEntries envOk).events :=
  ⟨by decide, by decide, by decide⟩

/-- C3 (counterexample): with no manifest in the archive and an empty
descriptor identity, extraction still writes files while the identity is
empty. -/
theorem C3_counterexample :
    (unzip pNoModule entriesNoManifest envOk).module = [] ∧
    FsEvent.write ("/dst/demo-master/main.go".toList) entMainGo.content ∈
      (unzip pNoModule entriesNoManifest envOk).events :=
  ⟨by decide, by decide⟩

/-- C3 (amended): with no injected failures, the identity in force after a run
is the descriptor identity when that is non-empty, and otherwise the identity
discovered in the manifest — which is empty (not resolved) when the archive
has no readable module declaration at an index the scan visits. -/
theorem C3_identity_resolution (p : Project) (entries : List ZipFile) (env : Env)
    (hf : env.fails = []) :
    ((¬ p.Module = []) → (unzip p entries env).module = p.Module) ∧
    (p.Module = [] → (unzip p entries env).module = discoveredOld p entries) := by
  rcases unzip_cases p entries env with hu | ⟨hev, hdst, op, herr, hop, hig⟩
  · rw [hu, unzipRest_module]
    constructor
    · intro hm
      unfold resolvedModule
      rw [if_neg hm]
    · intro hm
      unfold resolvedModule
      rw [if_pos hm]
  · rw [hf] at hop
    simp at hop

theorem C3_identity_resolution_witness :
    envOk.fails = [] ∧ (unzip pDemo demoEntries envOk).module = pDemo.Module :=
  ⟨rfl, (C3_identity_resolution pDemo demoEntries envOk rfl).1 (by decide)⟩

/-- C4 (counterexample): an archive whose `go.mod` manifest is its very first
entry (index 0): the cleaned name matches, yet the scan fails to find it. -/
theorem C4_counterexample :
    clean entGoMod.name = modFilePath pDemo ∧
    findGoMod (modFilePath pDemo) entriesManifestFirst = none :=
  ⟨by decide, by decide⟩

/-- C4 (amended): the scan runs from the last index down to index 1, the
match with the largest index wins, and it finds the manifest exactly when a
matching entry sits at some index at least 1 — the entry at index 0 is never
examined. -/
theorem C4_manifest_scan (modFile : List Char) (entries : List ZipFile) :
    (∀ i f, findGoMod modFile entries = some (i, f) →
      0 < i ∧ entries.get? i = some f ∧ clean f.name = modFile ∧
      ∀ j g, i < j → entries.get? j = some g → ¬ clean g.name = modFile) ∧
    (∀ i f, 0 < i → entries.get? i = some f → clean f.name = modFile →
      ¬ findGoMod modFile entries = none) := by
  constructor
  · intro i f h
    obtain ⟨hi0, hin, hget, hcl, hmax⟩ :=
      scanFrom_some_inv modFile entries (entries.length - 1) i f h
    refine ⟨hi0, hget, hcl, ?_⟩
    intro j g hj hgj
    obtain ⟨hjlen, _⟩ := List.get?_eq_some.mp hgj
    exact hmax j g hj (by omega) hgj
  · intro i f hi0 hget hcl
    obtain ⟨hilen, _⟩ := List.get?_eq_some.mp hget
    exact scanFrom_finds modFile entries (entries.length - 1) i f (by omega) hi0 hget hcl

theorem C4_manifest_scan_witness :
    ¬ findGoMod (modFilePath pDemo) demoEntries = none :=
  (C4_manifest_scan (modFilePath pDemo) demoEntries).2 1 entGoMod
    (by decide) (by decide) (by decide)
theorem unzip_write_src (p : Project) (entries : List ZipFile) (env : Env)
    (path c : List Char)
    (h : FsEvent.write path c ∈ (unzip p entries env).events) :
    (unzip p entries env).dest = resolveDest p (resolvedModule p entries) env ∧
    ∃ f ∈ entries, path = join (resolveDest p (resolvedModule p entries) env) f.name ∧
      c = (if decide (¬ discoveredOld p entries = resolvedModule p entries)
            then replaceAll f.content (discoveredOld p entries) (resolvedModule p entries)
            else f.content) ∧
      ¬ FsOp.openFile path ∈ env.fails ∧ ¬ FsOp.copy path ∈ env.fails := by
  rcases unzip_cases p entries env with hu | ⟨hev, _, _⟩
  · rw [hu] at h ⊢
    rw [unzipRest_dest]
    refine ⟨rfl, ?_⟩
    have h₂ := unzipRest_write_mem p entries env _ _ path c h
    obtain ⟨f, hf, hpfx, hforms⟩ := extractLoop_event_inv _ _ _ _ env entries _ h₂
    rcases hforms with hx | hx | ⟨hx, ho, hc⟩
    · simp at hx
    · simp at hx
    · simp only [FsEvent.write.injEq] at hx
      refine ⟨f, hf, hx.1, hx.2, ?_, ?_⟩
      · rw [hx.1]
        exact ho
      · rw [hx.1]
        exact hc
  · rw [hev] at h
    simp at h

/-- C8: when the discovered original identity equals the resolved target one,
the rewrite decision is off and every file content written during extraction is
byte-identical to the archived content of the entry it came from. -/
theorem C8_equal_identity_no_rewrite (p : Project) (entries : List ZipFile) (env : Env)
    (h : discoveredOld p entries = resolvedModule p entries) :
    ∀ path c, FsEvent.write path c ∈ (unzip p entries env).events →
      ∃ f ∈ entries, path = join (unzip p entries env).dest f.name ∧ c = f.content := by
  intro path c hw
  obtain ⟨hdst, f, hf, hpath, hc, _, _⟩ := unzip_write_src p entries env path c hw
  rw [hdst]
  refine ⟨f, hf, hpath, ?_⟩
  rw [hc, h]
  simp

theorem C8_equal_identity_no_rewrite_witness :
    discoveredOld pNoModule demoEntries = resolvedModule pNoModule demoEntries ∧
    ∃ f ∈ demoEntries,
      ("/dst/demo-master/main.go".toList) =
        join (unzip pNoModule demoEntries envOk).dest f.name ∧
      entMainGo.content = f.content :=
  ⟨by decide, C8_equal_identity_no_rewrite pNoModule demoEntries envOk (by decide)
    ("/dst/demo-master/main.go".toList) entMainGo.content (by decide)⟩

/-- C9 (counterexample): a directory-create failure is NOT fatal: with
`MkdirAll` failing on the extracted root, unzip still returns success. -/
theorem C9_counterexample :
    FsOp.mkdirAll ("/dst/demo-master".toList) ∈ envMkdirFail.fails ∧
    (clean pDemo.Dest ++ [pathSeparator]).isPrefixOf (join pDemo.Dest entDir.name) = true ∧
    (unzip pDemo [entDir] envMkdirFail).err = none :=
  ⟨by decide, by decide, by decide⟩

/-- C10: with an empty discovered identity and a non-empty explicit target
identity, the rewrite decision is on, replacing the empty byte sequence
inserts the new identity before every byte of a file's content and at its
end, and consequently no non-empty file is written with its original
content. -/
theorem C10_empty_old_interleaves (p : Project) (entries : List ZipFile) (env : Env)
    (h₀ : discoveredOld p entries = [])
    (h₁ : ¬ p.Module = []) :
    shouldReplaceOf p entries = true ∧
    (∀ s : List Char, replaceAll s [] p.Module = interleaved p.Module s) ∧
    (∀ path c, FsEvent.write path c ∈ (unzip p entries env).events →
      ∃ f ∈ entries, path = join (unzip p entries env).dest f.name ∧
        c = interleaved p.Module f.content ∧
        (¬ f.content = [] → ¬ c = f.content)) := by
  have hres : resolvedModule p entries = p.Module := by
    unfold resolvedModule
    rw [if_neg h₁]
  have hne : ¬ ([] : List Char) = p.Module := fun e => h₁ e.symm
  refine ⟨?_, ?_, ?_⟩
  · unfold shouldReplaceOf
    rw [h₀, hres]
    exact decide_eq_true hne
  · intro s
    exact replaceAll_nil_eq p.Module s
  · intro path c hw
    obtain ⟨hdst, f, hf, hpath, hc, _, _⟩ := unzip_write_src p entries env path c hw
    have hc₂ : c = interleaved p.Module f.content := by
      rw [hc, h₀, hres, if_pos (decide_eq_true hne)]
      exact replaceAll_nil_eq p.Module f.content
    refine ⟨f, hf, ?_, hc₂, ?_⟩
    · rw [hdst]
      exact hpath
    · intro _ hcc
      exact interleaved_ne p.Module f.content h₁ (hc₂ ▸ hcc)

theorem C10_empty_old_interleaves_witness :
    ∃ f ∈ [entSmall],
      ("/dst/demo-master/x.txt".toList) =
        join (unzip pTinyModule [entSmall] envOk).dest f.name ∧
      ("mambm".toList) = interleaved pTinyModule.Module f.content ∧
      (¬ f.content = [] → ¬ ("mambm".toList) = f.content) :=
  (C10_empty_old_interleaves pTinyModule [entSmall] envOk (by decide) (by decide)).2.2
    ("/dst/demo-master/x.txt".toList) ("mambm".toList) (by decide)

theorem extractLoop_none_inv (dest : List Char) (sr : Bool) (oldN newN : List Char) (env : Env) :
    ∀ fs, (extractLoop dest sr oldN newN env fs).2 = none →
      ∀ f ∈ fs, (clean dest ++ [pathSeparator]).isPrefixOf (join dest f.name) = true ∧
        (¬ f.isDir = true →
          ¬ FsOp.openFile (join dest f.name) ∈ env.fails ∧
          ¬ FsOp.entryOpen f.name ∈ env.fails ∧
          (sr = true → ¬ FsOp.entryRead f.name ∈ env.fails) ∧
          ¬ FsOp.copy (join dest f.name) ∈ env.fails) := by
  intro fs
  induction fs with
  | nil => intro h f hf; simp at hf
  | cons g fs ih =>
    intro h f hf
    by_cases h₁ : (clean dest ++ [pathSeparator]).isPrefixOf (join dest g.name) = true
    · by_cases h₂ : g.isDir = true
      · rw [extractLoop_cons_dir dest sr oldN newN env g fs h₁ h₂] at h
        rcases List.mem_cons.mp hf with rfl | hf₂
        · exact ⟨h₁, fun hnd => absurd h₂ hnd⟩
        · exact ih h f hf₂
      · by_cases h₃ : FsOp.openFile (join dest g.name) ∈ env.fails
        · rw [extractLoop_cons_openFail dest sr oldN newN env g fs h₁ h₂ h₃] at h
          simp at h
        · by_cases h₄ : FsOp.entryOpen g.name ∈ env.fails
          · rw [extractLoop_cons_entryOpenFail dest sr oldN newN env g fs h₁ h₂ h₃ h₄] at h
            simp at h
          · by_cases h₅ : sr = true ∧ FsOp.entryRead g.name ∈ env.fails
            · rw [extractLoop_cons_readFail dest sr oldN newN env g fs h₁ h₂ h₃ h₄ h₅] at h
              simp at h
            · by_cases h₆ : FsOp.copy (join dest g.name) ∈ env.fails
              · rw [extractLoop_cons_copyFail dest sr oldN newN env g fs h₁ h₂ h₃ h₄ h₅ h₆] at h
                simp at h
              · rw [extractLoop_cons_ok dest sr oldN newN env g fs h₁ h₂ h₃ h₄ h₅ h₆] at h
                rcases List.mem_cons.mp hf with rfl | hf₂
                · refine ⟨h₁, fun _ => ⟨h₃, h₄, ?_, h₆⟩⟩
                  intro hsr hr
                  exact h₅ ⟨hsr, hr⟩
                · exact ih h f hf₂
    · rw [extractLoop_cons_bad dest sr oldN newN env g fs h₁] at h
      simp at h

theorem unzipRest_none_inv (p : Project) (entries : List ZipFile) (env : Env)
    (oldName newMod : List Char)
    (h : (unzipRest p entries env oldName newMod).err = none) :
    (extractLoop (resolveDest p newMod env) (decide (¬ oldName = newMod))
        oldName newMod env entries).2 = none ∧
    ¬ FsOp.rename (join (resolveDest p newMod env) (compressedRootFolder p))
        (join (resolveDest p newMod env) (base newMod)) ∈ env.fails := by
  revert h
  simp only [unzipRest]
  split
  · rename_i e heq
    intro h
    simp at h
  · rename_i heq
    split
    · rename_i hrn
      intro h
      simp at h
    · rename_i hrn
      intro h
      exact ⟨heq, hrn⟩

/-- C9 (amended): file create, entry open, entry read, content copy, and the
final rename failures are fatal — a run that returns success performed none of
these operations on a failing target (so any such failure forces an error
return), and any I/O error unzip returns names a genuinely failing,
non-ignored operation — while `MkdirAll` and `RemoveAll` failures are ignored
and never surface; a file content write only happens when its create and copy
operations succeed. -/
theorem C9_io_failures (p : Project) (entries : List ZipFile) (env : Env) :
    (∀ op, (unzip p entries env).err = some (UErr.ioErr op) →
      op ∈ env.fails ∧ ignoredOp op = false) ∧
    ((∀ op ∈ env.fails, ignoredOp op = true) →
      ∀ op, ¬ (unzip p entries env).err = some (UErr.ioErr op)) ∧
    (∀ path c, FsEvent.write path c ∈ (unzip p entries env).events →
      ¬ FsOp.openFile path ∈ env.fails ∧ ¬ FsOp.copy path ∈ env.fails) ∧
    ((unzip p entries env).err = none →
      (∀ i f, findGoMod (modFilePath p) entries = some (i, f) →
        ¬ FsOp.entryOpen f.name ∈ env.fails ∧ ¬ FsOp.entryRead f.name ∈ env.fails) ∧
      (∀ f ∈ entries, ¬ f.isDir = true →
        ¬ FsOp.openFile (join (unzip p entries env).dest f.name) ∈ env.fails ∧
        ¬ FsOp.entryOpen f.name ∈ env.fails ∧
        (shouldReplaceOf p entries = true → ¬ FsOp.entryRead f.name ∈ env.fails) ∧
        ¬ FsOp.copy (join (unzip p entries env).dest f.name) ∈ env.fails) ∧
      ¬ FsOp.rename (join (unzip p entries env).dest (compressedRootFolder p))
          (join (unzip p entries env).dest (base (unzip p entries env).module)) ∈
        env.fails) := by
  have hmain : ∀ op, (unzip p entries env).err = some (UErr.ioErr op) →
      op ∈ env.fails ∧ ignoredOp op = false := by
    intro op h
    rcases unzip_cases p entries env with hu | ⟨_, _, op₂, herr, hop, hig⟩
    · rw [hu] at h
      exact unzipRest_err_ioErr_inv p entries env _ _ op h
    · rw [herr] at h
      simp only [Option.some.injEq, UErr.ioErr.injEq] at h
      rw [← h]
      exact ⟨hop, hig⟩
  refine ⟨hmain, ?_, ?_, ?_⟩
  · intro hall op h
    obtain ⟨hmem, hig⟩ := hmain op h
    rw [hall op hmem] at hig
    cases hig
  · intro path c hw
    obtain ⟨_, f, hf, _, _, ho, hc⟩ := unzip_write_src p entries env path c hw
    exact ⟨ho, hc⟩
  · intro hnone
    have hscan : ∀ i f, findGoMod (modFilePath p) entries = some (i, f) →
        ¬ FsOp.entryOpen f.name ∈ env.fails ∧ ¬ FsOp.entryRead f.name ∈ env.fails := by
      intro i f hfind
      have ho : ¬ FsOp.entryOpen f.name ∈ env.fails := by
        intro ho
        have h₂ : (unzip p entries env).err =
            some (UErr.ioErr (FsOp.entryOpen f.name)) := by
          simp only [unzip, hfind, if_pos ho]
        rw [hnone] at h₂
        cases h₂
      refine ⟨ho, ?_⟩
      intro hr
      have h₂ : (unzip p entries env).err =
          some (UErr.ioErr (FsOp.entryRead f.name)) := by
        simp only [unzip, hfind, if_neg ho, if_pos hr]
      rw [hnone] at h₂
      cases h₂
    refine ⟨hscan, ?_⟩
    rcases unzip_cases p entries env with hu | ⟨_, _, op₂, herr, _, _⟩
    · rw [hu] at hnone ⊢
      rw [unzipRest_dest, unzipRest_module]
      obtain ⟨hloop, hrn⟩ :=
        unzipRest_none_inv p entries env (discoveredOld p entries) (resolvedModule p entries) hnone
      refine ⟨?_, hrn⟩
      intro f hf hnd
      obtain ⟨_, hrest⟩ := extractLoop_none_inv (resolveDest p (resolvedModule p entries) env)
        (decide (¬ discoveredOld p entries = resolvedModule p entries))
        (discoveredOld p entries) (resolvedModule p entries) env entries hloop f hf
      obtain ⟨ho, heo, hread, hcopy⟩ := hrest hnd
      refine ⟨ho, heo, ?_, hcopy⟩
      intro hs
      apply hread
      unfold shouldReplaceOf at hs
      exact hs
    · rw [herr] at hnone
      cases hnone

theorem C9_io_failures_witness :
    (∀ op ∈ envMkdirFail.fails, ignoredOp op = true) ∧
    ¬ (unzip pDemo [entDir, entMainGo] envMkdirFail).err =
        some (UErr.ioErr (FsOp.mkdirAll ("/dst/demo-master".toList))) ∧
    (¬ FsOp.openFile (join (unzip pDemo [entDir, entMainGo] envMkdirFail).dest
          entMainGo.name) ∈ envMkdirFail.fails ∧
      ¬ FsOp.entryOpen entMainGo.name ∈ envMkdirFail.fails ∧
      (shouldReplaceOf pDemo [entDir, entMainGo] = true →
        ¬ FsOp.entryRead entMainGo.name ∈ envMkdirFail.fails) ∧
      ¬ FsOp.copy (join (unzip pDemo [entDir, entMainGo] envMkdirFail).dest
          entMainGo.name) ∈ envMkdirFail.fails) ∧
    ¬ FsOp.rename
        (join (unzip pDemo [entDir, entMainGo] envMkdirFail).dest (compressedRootFolder pDemo))
        (join (unzip pDemo [entDir, entMainGo] envMkdirFail).dest
          (base (unzip pDemo [entDir, entMainGo] envMkdirFail).module)) ∈
      envMkdirFail.fails :=
  ⟨by decide,
   (C9_io_failures pDemo [entDir, entMainGo] envMkdirFail).2.1 (by decide)
     (FsOp.mkdirAll ("/dst/demo-master".toList)),
   ((C9_io_failures pDemo [entDir, entMainGo] envMkdirFail).2.2.2 (by decide)).2.1
     entMainGo (by decide) (by decide),
   ((C9_io_failures pDemo [entDir, entMainGo] envMkdirFail).2.2.2 (by decide)).2.2⟩
